import Mathlib

/-!
Shallow embedding of the Conversation Intelligence Engine of the
ai-honeypot-api repository (`main.py` and `backend/database.py`).

Conventions of the embedding:
* Message text is ASCII; Python `str` values are Lean `String`s and all
  character-level processing works on `List Char`.
* Confidence values and intent scores are represented in hundredths as `Nat`
  (Python `0.95` becomes `95`, the `0.3` threshold becomes `30`), so that all
  arithmetic of the source is exact and decidable.  Every increment of the
  source is a multiple of `0.05`, so this scaling is faithful.
* Timestamps (`datetime.now()`) are passed explicitly as a `Nat` parameter.
* The SQLite tables that the claims mention are modelled as association lists:
  the `scammers` table as `List (String × Nat)` (identifier, session_count)
  and the `network_links` table as `List (String × String × String)`
  (source, target, session_id) with its `UNIQUE` constraint.
* The external reply generator is out of scope (spec §2): only its effect on
  session state is modelled, plus the reply text as an oracle parameter.
-/

namespace Honeypot

/-- ASCII decimal digit, as matched by `\d` on the inputs in scope. -/
def isDigitB (c : Char) : Bool := '0' ≤ c && c ≤ '9'

/-- ASCII letter. -/
def isAlphaB (c : Char) : Bool := ('a' ≤ c && c ≤ 'z') || ('A' ≤ c && c ≤ 'Z')

/-- Python regex word character `\w` (ASCII): letter, digit or underscore. -/
def isWordB (c : Char) : Bool := isAlphaB c || isDigitB c || c = '_'

/-- Lowercasing of text, `str.lower` on ASCII text. -/
def toLowerL (cs : List Char) : List Char := cs.map Char.toLower

/-- Python's substring containment `needle in hay`. -/
def substrB (needle hay : List Char) : Bool :=
  hay.tails.any (fun t => needle.isPrefixOf t)

/-! ### `re.findall(r'\b(\d{9,18})\b', text)` — bank-account candidates

A match is a maximal run of digits whose two neighbours (when present) are
non-word characters, of length 9 to 18.  The scanner walks the text one
character at a time; `leftOk` records whether the character before the current
digit run was a non-word character (or the start of the text), `run` is the
digit run read so far. -/

/-- Emission of a completed digit run: `bd` tells whether the right
boundary is a word boundary. -/
def bankEmit (leftOk : Bool) (run : List Char) (bd : Bool) : List (List Char) :=
  if leftOk && bd && decide (9 ≤ run.length) && decide (run.length ≤ 18) then [run] else []

/-- Scanner for the bank-account regex. -/
def bankGo (leftOk : Bool) (run : List Char) : List Char → List (List Char)
  | [] => bankEmit leftOk run true
  | c :: cs =>
    if isDigitB c then bankGo leftOk (run ++ [c]) cs
    else bankEmit leftOk run (!isWordB c) ++ bankGo (!isWordB c) [] cs

/-- All matches of `\b(\d{9,18})\b` in the text. -/
def findBank (cs : List Char) : List (List Char) := bankGo true [] cs

/-! ### `re.findall(r'(\+?\d{10,13})', text)` — phone-number candidates

There are no word boundaries in this pattern; within one maximal digit run the
engine greedily consumes up to 13 digits per match, repeatedly while at least
10 digits remain. -/

/-- Successive `\d{10,13}` matches inside one maximal digit run.  `fuel`
bounds the recursion; callers pass the run length, which suffices because
every step consumes 13 digits. -/
def phoneChunksF : Nat → List Char → List (List Char)
  | 0, _ => []
  | fuel + 1, ds =>
    if 10 ≤ ds.length then ds.take 13 :: phoneChunksF fuel (ds.drop 13) else []

/-- Matches produced by one maximal digit run, `plus` telling whether the run
was immediately preceded by a `+` (which the optional `\+?` then captures). -/
def emitPhoneRun (plus : Bool) (run : List Char) : List (List Char) :=
  if plus && decide (10 ≤ run.length) then
    ('+' :: run.take 13) :: phoneChunksF (run.drop 13).length (run.drop 13)
  else phoneChunksF run.length run

/-- Scanner for the phone regex: accumulates the current maximal digit run and
whether a `+` immediately precedes it. -/
def phoneGo (plus : Bool) (run : List Char) : List Char → List (List Char)
  | [] => emitPhoneRun plus run
  | c :: cs =>
    if isDigitB c then phoneGo plus (run ++ [c]) cs
    else if c = '+' then emitPhoneRun plus run ++ phoneGo true [] cs
    else emitPhoneRun plus run ++ phoneGo false [] cs

/-- All matches of `(\+?\d{10,13})` in the text. -/
def findPhone (cs : List Char) : List (List Char) := phoneGo false [] cs

/-! ### `re.findall(r'([\w.-]+@[\w.-]+)', text)` — UPI-handle candidates -/

/-- Character class `[\w.-]` of the UPI regex. -/
def upiClass (c : Char) : Bool := isWordB c || c = '.' || c = '-'

/-- Scanner state for the UPI regex: either reading a candidate local part, or
reading the domain part after an `@`. -/
inductive UpiMode where
  | scan (run : List Char)
  | dom (loc : List Char) (d : List Char)

/-- Emission of a UPI candidate: the domain part must be non-empty. -/
def emitUpi (loc d : List Char) : List (List Char) :=
  if d.isEmpty then [] else [loc ++ '@' :: d]

/-- Scanner for the UPI regex. -/
def upiGo : UpiMode → List Char → List (List Char)
  | .scan _, [] => []
  | .scan run, c :: cs =>
    if upiClass c then upiGo (.scan (run ++ [c])) cs
    else if c = '@' && !run.isEmpty then upiGo (.dom run []) cs
    else upiGo (.scan []) cs
  | .dom loc d, [] => emitUpi loc d
  | .dom loc d, c :: cs =>
    if upiClass c then upiGo (.dom loc (d ++ [c])) cs
    else emitUpi loc d ++ upiGo (.scan []) cs

/-- All matches of `([\w.-]+@[\w.-]+)` in the text. -/
def findUpi (cs : List Char) : List (List Char) := upiGo (.scan []) cs

/-! ### `re.findall(r'(http[s]?://[^\s<>"\']+)', text)` — phishing links -/

/-- Python regex whitespace `\s` on ASCII text. -/
def isSpaceB (c : Char) : Bool :=
  c = ' ' || c = '\t' || c = '\n' || c = '\r' || c = '\x0b' || c = '\x0c'

/-- Characters that terminate a link body: the class `[^\s<>"\']`. -/
def linkStop (c : Char) : Bool :=
  isSpaceB c || c = '<' || c = '>' || c = '"' || c = '\x27'

/-- Scanner state for the link regex: either looking for a scheme, or reading
the link body after a scheme. -/
inductive LinkMode where
  | seek
  | body (scheme : List Char) (acc : List Char)

/-- Emission of a link: the body after the scheme must be non-empty. -/
def emitLink (scheme acc : List Char) : List (List Char) :=
  if acc.isEmpty then [] else [scheme ++ acc]

/-- Scanner for the link regex. -/
def linkGo : LinkMode → List Char → List (List Char)
  | .seek, [] => []
  | .seek, 'h' :: 't' :: 't' :: 'p' :: 's' :: ':' :: '/' :: '/' :: rest =>
    linkGo (.body "https://".toList []) rest
  | .seek, 'h' :: 't' :: 't' :: 'p' :: ':' :: '/' :: '/' :: rest =>
    linkGo (.body "http://".toList []) rest
  | .seek, _ :: cs => linkGo .seek cs
  | .body sch acc, [] => emitLink sch acc
  | .body sch acc, c :: cs =>
    if linkStop c then emitLink sch acc ++ linkGo .seek cs
    else linkGo (.body sch (acc ++ [c])) cs

/-- All matches of `(http[s]?://[^\s<>"\']+)` in the text. -/
def findLinks (cs : List Char) : List (List Char) := linkGo .seek cs

/-! ### Intent Scorer — `detect_scam_intent` -/

/-- The `SCAM_PATTERNS` keyword table of `main.py`. -/
def SCAM_PATTERNS : List (String × List String) :=
  [("urgency", ["immediately", "urgent", "now", "today", "expire", "limited time"]),
   ("financial", ["bank", "account", "upi", "payment", "transfer", "verify", "suspend", "block"]),
   ("threats", ["blocked", "suspended", "legal action", "arrest", "penalty", "fine"]),
   ("requests", ["share", "send", "provide", "click", "download", "install", "update"]),
   ("impersonation", ["bank", "government", "police", "income tax", "customs", "rbi"]),
   ("reward", ["won", "prize", "lottery", "reward", "cashback", "free", "offer"])]

/-- Presence of the heuristic `re.search(r'\d{10,}', text)`: ten consecutive
digits occur somewhere. -/
def hasDigitRun10 (cs : List Char) : Bool :=
  cs.tails.any (fun t => decide ((t.take 10).length = 10) && (t.take 10).all isDigitB)

/-- Presence of the heuristic `re.search(r'http[s]?://', text)` (case
sensitive, as in the source). -/
def hasUrl (cs : List Char) : Bool :=
  substrB "http://".toList cs || substrB "https://".toList cs

/-- Local-part class `[A-Z0-9._%+-]` of the email regex (with `re.I`). -/
def localClass (c : Char) : Bool :=
  isAlphaB c || isDigitB c || c = '.' || c = '_' || c = '%' || c = '+' || c = '-'

/-- Domain-part class `[A-Z0-9.-]` of the email regex (with `re.I`). -/
def domainClass (c : Char) : Bool := isAlphaB c || isDigitB c || c = '.' || c = '-'

/-- After the first domain character: does the rest start with
`[A-Z0-9.-]*\.[A-Z]{2,}`? -/
def domainScan2 : List Char → Bool
  | [] => false
  | c :: cs =>
    if c = '.' && (match cs with | a :: b :: _ => isAlphaB a && isAlphaB b | _ => false) then
      true
    else domainClass c && domainScan2 cs

/-- Does the text start with `[A-Z0-9.-]+\.[A-Z]{2,}`? -/
def domainScan : List Char → Bool
  | [] => false
  | c :: cs => domainClass c && domainScan2 cs

/-- Presence of the heuristic
`re.search(r'[A-Z0-9._%+-]+@[A-Z0-9.-]+\.[A-Z]{2,}', text, re.I)`. -/
def hasEmail (cs : List Char) : Bool :=
  cs.tails.any (fun t =>
    match t with
    | c :: '@' :: rest => localClass c && domainScan rest
    | _ => false)

/-- Accumulation of detected pattern tags and of the raw (unclamped) score of
`detect_scam_intent`, in hundredths: each keyword hit adds 15, a 10+ digit run
adds 20, a URL adds 25, an email adds 15. -/
def scoreSignals (text : String) : List String × Nat :=
  let tl := toLowerL text.toList
  let s0 := SCAM_PATTERNS.foldl (fun acc p =>
    p.2.foldl (fun (acc : List String × Nat) kw =>
      if substrB kw.toList tl then (acc.1 ++ [p.1 ++ ":" ++ kw], acc.2 + 15) else acc) acc)
    ([], 0)
  let s1 := if hasDigitRun10 text.toList then (s0.1 ++ ["phone_number_present"], s0.2 + 20) else s0
  let s2 := if hasUrl text.toList then (s1.1 ++ ["link_present"], s1.2 + 25) else s1
  if hasEmail text.toList then (s2.1 ++ ["email_present"], s2.2 + 15) else s2

/-- The Intent Scorer `detect_scam_intent(text)`: returns
`(is_scam, confidence, detected_patterns)`.  `is_scam` compares the raw score
with the threshold (0.30, i.e. 30 hundredths) before clamping; the confidence
is the score clamped to 1.0 (100 hundredths). -/
def detect_scam_intent (text : String) : Bool × Nat × List String :=
  let s := scoreSignals text
  (decide (30 ≤ s.2), min s.2 100, s.1)

/-! ### Intelligence Extractor — `extract_intelligence` -/

/-- A confidence-weighted intelligence item (`IntelligenceItem` model). -/
structure IntelligenceItem where
  value : String
  confidence : Nat
  extractedAt : Nat
  extractionMethod : String
deriving DecidableEq

/-- The per-session extracted-intelligence set (`ExtractedIntelligence`
model). -/
structure ExtractedIntelligence where
  bankAccounts : List IntelligenceItem
  upiIds : List IntelligenceItem
  phishingLinks : List IntelligenceItem
  phoneNumbers : List IntelligenceItem
  suspiciousKeywords : List String
deriving DecidableEq

/-- A fresh, empty intelligence set (`ExtractedIntelligence()`). -/
def emptyIntel : ExtractedIntelligence := ⟨[], [], [], [], []⟩

/-- Python's `any(item.value == v for item in items)`. -/
def hasValue (items : List IntelligenceItem) (v : String) : Bool :=
  items.any (fun it => it.value == v)

/-- One extraction loop of the source: for each candidate value, if it passes
the category filter `keep` and is not already stored, append a new item with
confidence `conf v`. -/
def addItems (keep : String → Bool) (conf : String → Nat) (method : String) (ts : Nat)
    (vals : List String) (items : List IntelligenceItem) : List IntelligenceItem :=
  vals.foldl (fun acc v =>
    if keep v && !hasValue acc v then acc ++ [⟨v, conf v, ts, method⟩] else acc) items

/-- Bank-account confidence: 0.9 for 11–16 digits, else 0.6. -/
def bankConf (v : String) : Nat :=
  if decide (11 ≤ v.length) && decide (v.length ≤ 16) then 90 else 60

/-- The `email_domains` list of the source. -/
def email_domains : List String :=
  ["gmail", "yahoo", "hotmail", "outlook", "mail", "protonmail", "icloud"]

/-- The `upi_patterns` list of the source. -/
def upi_patterns : List String :=
  ["paytm", "phonepe", "gpay", "upi", "okaxis", "ybl", "okhdfcbank", "oksbi", "axl",
   "fakebank", "bank"]

/-- The UPI acceptance test of the source: a candidate is kept when it matches
a known provider keyword, or when it does not look like an ordinary email
(an email-provider name occurring in the lowercased candidate together with a
dot in its `split('@')[1]` part). -/
def upiKeep (v : String) : Bool :=
  let lo := toLowerL v.toList
  let domPart := ((lo.dropWhile (fun c => !(c = '@'))).drop 1).takeWhile (fun c => !(c = '@'))
  let isEmail := (email_domains.any fun dm => substrB dm.toList lo) && substrB ['.'] domPart
  (upi_patterns.any fun p => substrB p.toList lo) || !isEmail

/-- UPI confidence: 0.95 when one of the first nine provider keywords occurs
in the lowercased candidate, else 0.8. -/
def upiConf (v : String) : Nat :=
  let lo := toLowerL v.toList
  if (upi_patterns.take 9).any (fun p => substrB p.toList lo) then 95 else 80

/-- Phone confidence: 0.9 for a `+`-prefixed value, else 0.7. -/
def phoneConf (v : String) : Nat := if v.toList.headD ' ' = '+' then 90 else 70

/-- The flattened keyword list the suspicious-keyword loop iterates over. -/
def scamKeywords : List String := SCAM_PATTERNS.foldr (fun p acc => p.2 ++ acc) []

/-- The suspicious-keyword loop over an arbitrary keyword list. -/
def addKeywordsAux (tl : List Char) (kws : List String) (acc : List String) : List String :=
  kws.foldl (fun acc kw =>
    if substrB kw.toList tl && !acc.contains kw then acc ++ [kw] else acc) acc

/-- The suspicious-keyword loop of `extract_intelligence`. -/
def addKeywords (tl : List Char) (existing : List String) : List String :=
  addKeywordsAux tl scamKeywords existing

/-- The Intelligence Extractor `extract_intelligence(text, existing)`: runs
the four regex extractions and the keyword scan, deduplicating per category by
exact value, and appends new items carrying the timestamp `ts`. -/
def extract_intelligence (text : String) (existing : ExtractedIntelligence) (ts : Nat) :
    ExtractedIntelligence :=
  let cs := text.toList
  let banks := addItems (fun _ => true) bankConf "regex_bank" ts
    ((findBank cs).map List.asString) existing.bankAccounts
  let upis := addItems upiKeep upiConf "regex_upi" ts
    ((findUpi cs).map List.asString) existing.upiIds
  let phones := addItems (fun _ => true) phoneConf "regex_phone" ts
    ((findPhone cs).map List.asString) existing.phoneNumbers
  let links := addItems (fun _ => true) (fun _ => 100) "regex_url" ts
    ((findLinks cs).map List.asString) existing.phishingLinks
  let kws := addKeywords (toLowerL cs) existing.suspiciousKeywords
  ⟨banks, upis, links, phones, kws⟩

/-! ### Stage Classifier — `detect_scam_stage` -/

/-- The Stage Classifier `detect_scam_stage(session_data, new_message)`.  Its
inputs from `session_data` are the message count and the intelligence set. -/
def detect_scam_stage (message_count : Nat) (intelligence : ExtractedIntelligence)
    (new_message : String) : String :=
  let tl := toLowerL new_message.toList
  if decide (message_count ≤ 2) &&
      (["urgent", "blocked", "suspended", "expired", "alert", "warning",
        "attention"].any fun w => substrB w.toList tl) then "HOOK"
  else if (["bank", "government", "police", "officer", "department", "official", "rbi",
        "income tax"].any fun w => substrB w.toList tl) && decide (message_count ≤ 4) then
    "TRUST_BUILDING"
  else if (["pay", "send", "transfer", "amount", "fee", "penalty", "fine", "deposit",
        "rupees", "rs"].any fun w => substrB w.toList tl) then "PAYMENT_ASK"
  else if (["share", "provide", "enter", "otp", "password", "cvv", "pin", "card number",
        "details"].any fun w => substrB w.toList tl) then "CREDENTIAL_REQUEST"
  else if substrB "http".toList tl || substrB "link".toList tl || substrB ".com".toList tl ||
      substrB "click".toList tl then "LINK_DROP"
  else if decide (0 < intelligence.bankAccounts.length) ||
      decide (0 < intelligence.upiIds.length) then "CLOSING"
  else "EXPLORATORY"

/-! ### Persona Selector — `select_persona` -/

/-- The Persona Selector `select_persona(scam_patterns, metadata)`.  The
`metadata` argument is unused by the source and omitted here. -/
def select_persona (scam_patterns : List String) : String :=
  let ps := toLowerL (String.intercalate " " scam_patterns).toList
  if ["link", "download", "app", "update", "install"].any (fun w => substrB w.toList ps) then
    "YOUNG_NAIVE"
  else if ["government", "police", "tax", "pension", "rbi", "customs",
      "arrest"].any (fun w => substrB w.toList ps) then "ELDERLY_CONFUSED"
  else if ["won", "prize", "lottery", "reward", "winner",
      "congratulations"].any (fun w => substrB w.toList ps) then "EXCITED_SKEPTICAL"
  else "WORRIED_PARENT"

/-! ### Session state and the finalization predicate -/

/-- The per-session mutable state kept in the global `sessions` map, with the
fields the Conversation Intelligence Engine reads and writes.  History entries
are (sender, text) pairs. -/
structure SessionData where
  conversation_history : List (String × String)
  intelligence : ExtractedIntelligence
  scam_detected : Bool
  scam_confidence : Nat
  scam_patterns : List String
  message_count : Nat
  callback_sent : Bool
  persona : String
  current_stage : String
deriving DecidableEq

/-- The freshly initialized session of `honeypot_conversation`. -/
def freshSession : SessionData :=
  { conversation_history := [], intelligence := emptyIntel, scam_detected := false,
    scam_confidence := 0, scam_patterns := [], message_count := 0,
    callback_sent := false, persona := "WORRIED_PARENT", current_stage := "EXPLORATORY" }

/-- The finalization predicate `should_finalize_session(session_data)`. -/
def should_finalize_session (sd : SessionData) : Bool :=
  let intel := sd.intelligence
  let has_critical_intel :=
    decide (0 < intel.bankAccounts.length) || decide (0 < intel.upiIds.length) ||
    decide (0 < intel.phishingLinks.length) || decide (1 < intel.phoneNumbers.length)
  decide (15 ≤ sd.message_count) || (decide (8 ≤ sd.message_count) && has_critical_intel)

/-! ### Database model — `backend/database.py`

The `scammers` table is an association list from identifier value to its
`session_count` column; `identifier` is `UNIQUE`.  The `network_links` table
is a list of (source, target, session_id) rows with
`UNIQUE(source_identifier, target_identifier, session_id)`. -/

/-- The scammer-profile effect of `save_intelligence(...)`: insert the
identifier with `session_count = 1`, or on conflict bump `session_count` by
one (`ON CONFLICT(identifier) DO UPDATE SET session_count = session_count + 1`). -/
def upsert_scammer (value : String) (profiles : List (String × Nat)) : List (String × Nat) :=
  if profiles.any (fun p => p.1 == value) then
    profiles.map (fun p => if p.1 == value then (p.1, p.2 + 1) else p)
  else profiles ++ [(value, 1)]

/-- The per-message persistence loop of `honeypot_conversation`: after
extraction it calls `db.save_intelligence` once for every item currently in
the cumulative intelligence set, in the order bank accounts, UPI ids, phone
numbers, links. -/
def save_all_intelligence (intel : ExtractedIntelligence) (profiles : List (String × Nat)) :
    List (String × Nat) :=
  ((intel.bankAccounts ++ intel.upiIds ++ intel.phoneNumbers ++ intel.phishingLinks).map
    (fun it => it.value)).foldl (fun db v => upsert_scammer v db) profiles

/-- One `INSERT OR IGNORE` into `network_links`: a no-op when the exact
(source, target, session) row already exists. -/
def insert_link (a b sid : String) (db : List (String × String × String)) :
    List (String × String × String) :=
  if (a, b, sid) ∈ db then db else db ++ [(a, b, sid)]

/-- The ordered pairs produced by the two nested index loops of
`build_network_links` (every i < j, in loop order). -/
def pairList : List String → List (String × String)
  | [] => []
  | x :: rest => rest.map (fun y => (x, y)) ++ pairList rest

/-- `build_network_links(session_id, intel_items)`: insert-or-ignore one link
per unordered pair of the session's intelligence values. -/
def build_network_links (sid : String) (ids : List String)
    (db : List (String × String × String)) : List (String × String × String) :=
  (pairList ids).foldl (fun d p => insert_link p.1 p.2 sid d) db

/-! ### Session Orchestrator — the `/api/honeypot` pipeline -/

/-- Steps 2–3 of the pipeline: append the inbound message to history,
increment the message count and, on the very first message, store the Intent
Scorer result and run the Persona Selector on its pattern tags. -/
def record_inbound (sender text : String) (sd0 : SessionData) : SessionData :=
  let sd1 := { sd0 with
    conversation_history := sd0.conversation_history ++ [(sender, text)],
    message_count := sd0.message_count + 1 }
  if sd1.message_count = 1 then
    let r := detect_scam_intent text
    { sd1 with scam_detected := r.1, scam_confidence := r.2.1, scam_patterns := r.2.2,
               persona := select_persona r.2.2 }
  else sd1

/-- Step 4: the Intelligence Extractor runs only on counterparty
(`sender == "scammer"`) messages. -/
def apply_extraction (sender text : String) (ts : Nat) (sd : SessionData) : SessionData :=
  if sender == "scammer" then
    { sd with intelligence := extract_intelligence text sd.intelligence ts }
  else sd

/-- The session-state effect of `generate_agent_response`: when a Groq API
key is configured, `build_agent_prompt` runs and stores the Stage Classifier
result in `current_stage`; the key-less fallback path returns a canned reply
without touching the session.  No other branch mutates the session. -/
def apply_stage (cfgGroq : Bool) (text : String) (sd : SessionData) : SessionData :=
  if cfgGroq then
    { sd with current_stage := detect_scam_stage sd.message_count sd.intelligence text }
  else sd

/-- The session state right after the agent reply has been appended to the
history, i.e. everything of one `/api/honeypot` call before the finalization
check.  `reply` is the text produced by the external reply generator. -/
def post_message_session (cfgGroq : Bool) (sender text reply : String) (ts : Nat)
    (sd0 : SessionData) : SessionData :=
  let sd3 := apply_extraction sender text ts (record_inbound sender text sd0)
  let sd4 := apply_stage cfgGroq text sd3
  { sd4 with conversation_history := sd4.conversation_history ++ [("user", reply)] }

/-- Session state plus the two database tables the claims are about. -/
structure PipelineState where
  sd : SessionData
  scammers : List (String × Nat)
  network_links : List (String × String × String)
deriving DecidableEq

/-- The initial state: fresh session, empty tables. -/
def initialState : PipelineState :=
  { sd := freshSession, scammers := [], network_links := [] }

/-- One full `/api/honeypot` call.  `cfgGroq` tells whether a Groq API key is
configured, `cbOk` whether the final-callback POST succeeds (the source sets
`callback_sent` to the success of that request).  Returns the new state and
whether the finalization branch fired on this message. -/
def honeypot_step (cfgGroq cbOk : Bool) (session_id sender text reply : String) (ts : Nat)
    (st : PipelineState) : PipelineState × Bool :=
  let sd5 := post_message_session cfgGroq sender text reply ts st.sd
  let scammers2 := if sender == "scammer" then save_all_intelligence sd5.intelligence st.scammers
    else st.scammers
  if sd5.scam_detected && !sd5.callback_sent && should_finalize_session sd5 then
    let links2 := build_network_links session_id
      ((sd5.intelligence.bankAccounts ++ sd5.intelligence.upiIds ++
        sd5.intelligence.phoneNumbers ++ sd5.intelligence.phishingLinks).map (fun it => it.value))
      st.network_links
    ({ sd := { sd5 with callback_sent := cbOk }, scammers := scammers2,
       network_links := links2 }, true)
  else ({ sd := sd5, scammers := scammers2, network_links := st.network_links }, false)

/-- An inbound message together with the reply-generator oracle output and
the extraction timestamp for that call. -/
structure InboundMsg where
  sender : String
  text : String
  reply : String
  ts : Nat
deriving DecidableEq

/-- Processing of a whole list of inbound messages for one session. -/
def honeypot_run (cfgGroq cbOk : Bool) (session_id : String) (msgs : List InboundMsg)
    (st : PipelineState) : PipelineState :=
  msgs.foldl (fun s m => (honeypot_step cfgGroq cbOk session_id m.sender m.text m.reply m.ts s).1)
    st

/-! ### Concrete inputs used by counterexamples and witnesses -/

/-- An intelligence set already holding a bank account. -/
def closingIntel : ExtractedIntelligence :=
  { emptyIntel with bankAccounts := [⟨"123456789", 60, 0, "regex_bank"⟩] }

/-- A session of two counterparty messages: the first one carries a payment
handle, the second one carries nothing extractable. -/
def twoMsgSession : List InboundMsg :=
  [⟨"scammer", "rewards@paytm", "ok", 0⟩, ⟨"scammer", "hello there", "ok", 0⟩]

/-- Fifteen counterparty messages none of which scores as scam intent. -/
def benignMsgs : List InboundMsg := List.replicate 15 ⟨"scammer", "hi", "ok", 0⟩

/-- A session state at seven processed messages with every kind of
intelligence present. -/
def richSessionAt7 : SessionData :=
  { freshSession with
    message_count := 7,
    scam_detected := true,
    intelligence :=
      { bankAccounts := [⟨"12345678901", 90, 0, "regex_bank"⟩],
        upiIds := [⟨"rewards@paytm", 95, 0, "regex_upi"⟩],
        phishingLinks := [⟨"http://x.co/a", 100, 0, "regex_url"⟩],
        phoneNumbers := [⟨"+919876543210", 90, 0, "regex_phone"⟩,
                         ⟨"9876543210", 70, 0, "regex_phone"⟩],
        suspiciousKeywords := ["bank"] } }

end Honeypot

namespace Honeypot

/-! ### Generic lemmas about the extraction loops -/

theorem hasValue_append (items : List IntelligenceItem) (x : IntelligenceItem) (w : String) :
    hasValue (items ++ [x]) w = (hasValue items w || (x.value == w)) := by
  simp [hasValue, List.any_append]

theorem hasValue_addItems_mono (keep : String → Bool) (conf : String → Nat) (method : String)
    (ts : Nat) (vals : List String) (items : List IntelligenceItem) (w : String)
    (h : hasValue items w = true) :
    hasValue (addItems keep conf method ts vals items) w = true := by
  induction vals generalizing items with
  | nil => exact h
  | cons v vs ih =>
    simp only [addItems, List.foldl_cons]
    apply ih
    by_cases hc : (keep v && !hasValue items v) = true
    · simp only [hc, if_pos, hasValue_append, h, Bool.true_or]
    · simp only [Bool.not_eq_true] at hc
      simp [hc, h]

theorem hasValue_addItems_self (keep : String → Bool) (conf : String → Nat) (method : String)
    (ts : Nat) (vals : List String) (items : List IntelligenceItem) (v : String)
    (hv : v ∈ vals) (hk : keep v = true) :
    hasValue (addItems keep conf method ts vals items) v = true := by
  induction vals generalizing items with
  | nil => cases hv
  | cons u vs ih =>
    simp only [addItems, List.foldl_cons]
    rcases List.mem_cons.mp hv with h1 | h2
    · subst h1
      apply hasValue_addItems_mono
      by_cases hp : hasValue items v = true
      · simp [hp]
      · simp only [Bool.not_eq_true] at hp
        simp [hk, hp, hasValue_append]
    · exact ih _ h2

theorem addItems_noop (keep : String → Bool) (conf : String → Nat) (method : String)
    (ts : Nat) (vals : List String) (items : List IntelligenceItem)
    (h : ∀ v ∈ vals, keep v = true → hasValue items v = true) :
    addItems keep conf method ts vals items = items := by
  induction vals with
  | nil => rfl
  | cons v vs ih =>
    have hstep : (if keep v && !hasValue items v then
        items ++ [⟨v, conf v, ts, method⟩] else items) = items := by
      cases hkv : keep v
      · simp
      · simp [h v (List.mem_cons_self v vs) hkv]
    simp only [addItems, List.foldl_cons] at *
    rw [hstep]
    exact ih (fun w hw hk => h w (List.mem_cons_of_mem _ hw) hk)

theorem mem_addKeywordsAux_mono (tl : List Char) (kws : List String) (acc : List String)
    (kw : String) (h : kw ∈ acc) : kw ∈ addKeywordsAux tl kws acc := by
  induction kws generalizing acc with
  | nil => exact h
  | cons k ks ih =>
    simp only [addKeywordsAux, List.foldl_cons]
    apply ih
    split
    · exact List.mem_append_left _ h
    · exact h

theorem mem_addKeywordsAux_self (tl : List Char) (kws : List String) (acc : List String)
    (kw : String) (hkw : kw ∈ kws) (hs : substrB kw.toList tl = true) :
    kw ∈ addKeywordsAux tl kws acc := by
  induction kws generalizing acc with
  | nil => cases hkw
  | cons k ks ih =>
    simp only [addKeywordsAux, List.foldl_cons]
    rcases List.mem_cons.mp hkw with h1 | h2
    · subst h1
      apply mem_addKeywordsAux_mono
      by_cases hp : kw ∈ acc
      · split
        · exact List.mem_append_left _ hp
        · exact hp
      · have hc : (substrB kw.toList tl && !acc.contains kw) = true := by
          simp [List.elem_eq_mem, hp]
          exact hs
        rw [if_pos hc]
        simp
    · exact ih _ h2

theorem addKeywordsAux_noop (tl : List Char) (kws : List String) (acc : List String)
    (h : ∀ kw ∈ kws, substrB kw.toList tl = true → kw ∈ acc) :
    addKeywordsAux tl kws acc = acc := by
  induction kws with
  | nil => rfl
  | cons k ks ih =>
    have hstep : (if substrB k.toList tl && !acc.contains k then acc ++ [k] else acc) = acc := by
      cases hks : substrB k.toList tl
      · simp
      · have hmem : k ∈ acc := h k (List.mem_cons_self k ks) hks
        simp [hmem]
    simp only [addKeywordsAux, List.foldl_cons] at *
    rw [hstep]
    exact ih (fun w hw hk => h w (List.mem_cons_of_mem _ hw) hk)

/-! ### Claim theorems -/

/-- C3: for every text, the Intent Scorer's returned confidence equals
`min raw 100` (raw score and confidence in hundredths, so this is
`min(score, 1.0)`), hence lies in [0, 1], and the `isScam` flag is true
exactly when the raw (pre-clamp) sum of the per-signal increments is at least
30 hundredths (0.3). -/
theorem detect_scam_intent_confidence_spec (text : String) :
    (detect_scam_intent text).2.1 = min (scoreSignals text).2 100 ∧
    0 ≤ (detect_scam_intent text).2.1 ∧ (detect_scam_intent text).2.1 ≤ 100 ∧
    ((detect_scam_intent text).1 = true ↔ 30 ≤ (scoreSignals text).2) := by
  refine ⟨rfl, Nat.zero_le _, Nat.min_le_right _ _, ?_⟩
  simp [detect_scam_intent]

/-- C5: extraction is idempotent — re-running `extract_intelligence` with the
same text on its own output changes nothing, for any pair of timestamps. -/
theorem extract_intelligence_idempotent (text : String) (S : ExtractedIntelligence)
    (ts ts2 : Nat) :
    extract_intelligence text (extract_intelligence text S ts) ts2
      = extract_intelligence text S ts := by
  show ExtractedIntelligence.mk _ _ _ _ _ = ExtractedIntelligence.mk _ _ _ _ _
  simp only [ExtractedIntelligence.mk.injEq]
  refine ⟨?_, ?_, ?_, ?_, ?_⟩
  · exact addItems_noop _ _ _ _ _ _
      (fun v hv hk => hasValue_addItems_self _ _ _ _ _ _ _ hv hk)
  · exact addItems_noop _ _ _ _ _ _
      (fun v hv hk => hasValue_addItems_self _ _ _ _ _ _ _ hv hk)
  · exact addItems_noop _ _ _ _ _ _
      (fun v hv hk => hasValue_addItems_self _ _ _ _ _ _ _ hv hk)
  · exact addItems_noop _ _ _ _ _ _
      (fun v hv hk => hasValue_addItems_self _ _ _ _ _ _ _ hv hk)
  · exact addKeywordsAux_noop _ _ _
      (fun kw hkw hs => mem_addKeywordsAux_self _ _ _ _ hkw hs)

/-- C6: `"pay to rewards@paytm"` yields a payment-handle item with confidence
0.95 (95 hundredths), while `"contact me at john@gmail.com"` yields no
payment-handle item at all. -/
theorem upi_disambiguation_examples :
    (extract_intelligence "pay to rewards@paytm" emptyIntel 0).upiIds
      = [⟨"rewards@paytm", 95, 0, "regex_upi"⟩] ∧
    (extract_intelligence "contact me at john@gmail.com" emptyIntel 0).upiIds = [] := by
  decide

/-- C9 counterexample: on empty message text the Stage Classifier does not
always return EXPLORATORY — a session that already holds a bank-account item
is classified CLOSING. -/
theorem empty_text_stage_counterexample :
    detect_scam_stage 5 closingIntel "" = "CLOSING" ∧
    ¬ detect_scam_stage 5 closingIntel "" = "EXPLORATORY" := by decide

/-- C9 amended: on empty message text, extraction never raises and adds no
intelligence item, and the classified stage is EXPLORATORY unless the session
already holds a bank-account or payment-handle item, in which case it is
CLOSING. -/
theorem toLowerL_nil : toLowerL [] = [] := rfl

theorem substrB_cons_nil (c : Char) (w : List Char) : substrB (c :: w) [] = false := rfl

theorem empty_text_graceful (count : Nat) (intel S : ExtractedIntelligence) (ts : Nat) :
    extract_intelligence "" S ts = S ∧
    detect_scam_stage count intel "" =
      (if 0 < intel.bankAccounts.length ∨ 0 < intel.upiIds.length then "CLOSING"
       else "EXPLORATORY") := by
  constructor
  · have hsub : ∀ kw ∈ scamKeywords, substrB kw.data (toLowerL []) = false := by decide
    cases S with
    | mk b u l p k =>
      show ExtractedIntelligence.mk _ _ _ _ _ = ExtractedIntelligence.mk b u l p k
      simp only [ExtractedIntelligence.mk.injEq]
      refine ⟨rfl, rfl, rfl, rfl, ?_⟩
      exact addKeywordsAux_noop _ _ _ (fun kw hkw hs => by simp [hsub kw hkw] at hs)
  · simp only [detect_scam_stage]
    simp [toLowerL_nil, substrB_cons_nil]

/-- C9 amended, witnessed at a concrete input: empty text on a session with a
stored bank account extracts nothing and classifies CLOSING. -/
theorem empty_text_graceful_witness :
    extract_intelligence "" closingIntel 3 = closingIntel ∧
    detect_scam_stage 9 closingIntel "" =
      (if 0 < closingIntel.bankAccounts.length ∨ 0 < closingIntel.upiIds.length then "CLOSING"
       else "EXPLORATORY") :=
  empty_text_graceful 9 closingIntel closingIntel 3

/-! ### Projection lemmas about the pipeline steps -/

theorem record_inbound_message_count (sender text : String) (sd : SessionData) :
    (record_inbound sender text sd).message_count = sd.message_count + 1 := by
  simp only [record_inbound]
  split <;> rfl

theorem apply_extraction_message_count (sender text : String) (ts : Nat) (sd : SessionData) :
    (apply_extraction sender text ts sd).message_count = sd.message_count := by
  simp only [apply_extraction]
  split <;> rfl

theorem apply_stage_message_count (cfgGroq : Bool) (text : String) (sd : SessionData) :
    (apply_stage cfgGroq text sd).message_count = sd.message_count := by
  simp only [apply_stage]
  split <;> rfl

theorem post_message_session_message_count (cfgGroq : Bool) (sender text reply : String)
    (ts : Nat) (sd : SessionData) :
    (post_message_session cfgGroq sender text reply ts sd).message_count
      = sd.message_count + 1 := by
  show (apply_stage _ _ _).message_count = _
  rw [apply_stage_message_count, apply_extraction_message_count, record_inbound_message_count]

theorem honeypot_step_message_count (cfgGroq cbOk : Bool) (sid sender text reply : String)
    (ts : Nat) (st : PipelineState) :
    (honeypot_step cfgGroq cbOk sid sender text reply ts st).1.sd.message_count
      = st.sd.message_count + 1 := by
  simp only [honeypot_step]
  split <;> exact post_message_session_message_count cfgGroq sender text reply ts st.sd

theorem record_inbound_persona_of_pos (sender text : String) (sd : SessionData)
    (h : 1 ≤ sd.message_count) : (record_inbound sender text sd).persona = sd.persona := by
  simp only [record_inbound]
  split
  · next hc =>
    exact absurd (show sd.message_count + 1 = 1 from hc) (by omega)
  · rfl

theorem record_inbound_persona_of_first (sender text : String) (sd : SessionData)
    (h : sd.message_count = 0) :
    (record_inbound sender text sd).persona = select_persona (detect_scam_intent text).2.2 := by
  simp only [record_inbound]
  split
  · rfl
  · next hc =>
    exact absurd (show sd.message_count + 1 = 1 by omega) hc

theorem apply_extraction_persona (sender text : String) (ts : Nat) (sd : SessionData) :
    (apply_extraction sender text ts sd).persona = sd.persona := by
  simp only [apply_extraction]
  split <;> rfl

theorem apply_stage_persona (cfgGroq : Bool) (text : String) (sd : SessionData) :
    (apply_stage cfgGroq text sd).persona = sd.persona := by
  simp only [apply_stage]
  split <;> rfl

theorem post_message_session_persona (cfgGroq : Bool) (sender text reply : String)
    (ts : Nat) (sd : SessionData) :
    (post_message_session cfgGroq sender text reply ts sd).persona
      = (record_inbound sender text sd).persona := by
  show (apply_stage _ _ _).persona = _
  rw [apply_stage_persona, apply_extraction_persona]

theorem honeypot_step_persona (cfgGroq cbOk : Bool) (sid sender text reply : String)
    (ts : Nat) (st : PipelineState) :
    (honeypot_step cfgGroq cbOk sid sender text reply ts st).1.sd.persona
      = (record_inbound sender text st.sd).persona := by
  simp only [honeypot_step]
  split <;> exact post_message_session_persona cfgGroq sender text reply ts st.sd

theorem honeypot_run_persona (cfgGroq cbOk : Bool) (sid : String) (msgs : List InboundMsg)
    (st : PipelineState) (h : 1 ≤ st.sd.message_count) :
    (honeypot_run cfgGroq cbOk sid msgs st).sd.persona = st.sd.persona := by
  induction msgs generalizing st with
  | nil => rfl
  | cons m ms ih =>
    show (honeypot_run _ _ _ ms _).sd.persona = _
    rw [ih _ (by rw [honeypot_step_message_count]; omega), honeypot_step_persona,
      record_inbound_persona_of_pos _ _ _ h]

theorem record_inbound_current_stage (sender text : String) (sd : SessionData) :
    (record_inbound sender text sd).current_stage = sd.current_stage := by
  simp only [record_inbound]
  split <;> rfl

theorem apply_extraction_current_stage (sender text : String) (ts : Nat) (sd : SessionData) :
    (apply_extraction sender text ts sd).current_stage = sd.current_stage := by
  simp only [apply_extraction]
  split <;> rfl

/-! ### Claim theorems, continued -/

/-- C2 amended: the finalization predicate holds exactly when the message
count reaches 15, or reaches 8 with at least one bank-account, payment-handle
or phishing-link item or at least two phone-number items; it never holds at
seven or fewer messages.  In the pipeline, however, the predicate is only
evaluated — and finalization only fires — for a session whose first message
was flagged as scam and whose callback has not been recorded yet. -/
theorem finalization_spec :
    (∀ sd : SessionData,
      (should_finalize_session sd = true ↔
        15 ≤ sd.message_count ∨
        (8 ≤ sd.message_count ∧
          (1 ≤ sd.intelligence.bankAccounts.length ∨ 1 ≤ sd.intelligence.upiIds.length ∨
           1 ≤ sd.intelligence.phishingLinks.length ∨
           2 ≤ sd.intelligence.phoneNumbers.length))) ∧
      (sd.message_count ≤ 7 → should_finalize_session sd = false)) ∧
    (∀ (cfgGroq cbOk : Bool) (sid sender text reply : String) (ts : Nat) (st : PipelineState),
      (honeypot_step cfgGroq cbOk sid sender text reply ts st).2 =
        ((post_message_session cfgGroq sender text reply ts st.sd).scam_detected &&
         !(post_message_session cfgGroq sender text reply ts st.sd).callback_sent &&
         should_finalize_session (post_message_session cfgGroq sender text reply ts st.sd))) := by
  constructor
  · intro sd
    have hiff : should_finalize_session sd = true ↔
        15 ≤ sd.message_count ∨
        (8 ≤ sd.message_count ∧
          (1 ≤ sd.intelligence.bankAccounts.length ∨ 1 ≤ sd.intelligence.upiIds.length ∨
           1 ≤ sd.intelligence.phishingLinks.length ∨
           2 ≤ sd.intelligence.phoneNumbers.length)) := by
      simp [should_finalize_session]
      omega
    refine ⟨hiff, fun h7 => ?_⟩
    cases hb : should_finalize_session sd
    · rfl
    · exfalso
      rcases hiff.mp hb with h | h
      · omega
      · omega
  · intro cfgGroq cbOk sid sender text reply ts st
    simp only [honeypot_step]
    split
    · next hc => exact hc.symm
    · next hc =>
      simp only [Bool.not_eq_true] at hc
      exact hc.symm

/-- C2 amended, witnessed: a session at seven messages holding every kind of
intelligence still does not satisfy the finalization predicate. -/
theorem finalization_spec_witness : should_finalize_session richSessionAt7 = false :=
  (finalization_spec.1 richSessionAt7).2 (by decide)

set_option maxRecDepth 100000 in
/-- C2 counterexample: after fifteen processed messages of a session whose
first message was not flagged as scam, the finalization predicate holds but
finalization has never fired (the callback was never recorded), refuting
"finalization fires exactly when the predicate holds". -/
theorem finalization_gate_counterexample :
    should_finalize_session (honeypot_run false true "s1" benignMsgs initialState).sd = true ∧
    (honeypot_run false true "s1" benignMsgs initialState).sd.callback_sent = false := by
  decide

/-- C7 amended: when a Groq API key is configured, after each processed
message the stored stage equals the Stage Classifier output for the newest
message (computed on the post-extraction session state), regardless of the
reply-generation outcome; with no API key configured the fallback path skips
the classifier and leaves the stored stage unchanged. -/
theorem stage_overwrite_spec (sender text reply : String) (ts : Nat) (sd0 : SessionData) :
    (post_message_session true sender text reply ts sd0).current_stage =
      detect_scam_stage
        (apply_extraction sender text ts (record_inbound sender text sd0)).message_count
        (apply_extraction sender text ts (record_inbound sender text sd0)).intelligence text ∧
    (post_message_session false sender text reply ts sd0).current_stage
      = sd0.current_stage := by
  constructor
  · rfl
  · show (apply_extraction sender text ts (record_inbound sender text sd0)).current_stage
      = sd0.current_stage
    rw [apply_extraction_current_stage, record_inbound_current_stage]

/-- C7 counterexample: with no Groq API key configured, processing the first
message "pay now please" leaves the stored stage at EXPLORATORY although the
Stage Classifier output for that message is PAYMENT_ASK. -/
theorem stage_stale_counterexample :
    (honeypot_step false true "s1" "scammer" "pay now please" "ok" 0 initialState).1.sd.current_stage
      = "EXPLORATORY" ∧
    detect_scam_stage
      (honeypot_step false true "s1" "scammer" "pay now please" "ok" 0
        initialState).1.sd.message_count
      (honeypot_step false true "s1" "scammer" "pay now please" "ok" 0
        initialState).1.sd.intelligence "pay now please" = "PAYMENT_ASK" ∧
    ¬ ("EXPLORATORY" : String) = "PAYMENT_ASK" := by decide

/-- C8: the persona is selected exactly once, on the first inbound message of
a session, from the pattern tags the Intent Scorer produced for that message,
and processing any further messages (with any senders, texts, tags or reply
outcomes) never changes it. -/
theorem persona_selected_once (cfgGroq cbOk : Bool) (sid sender1 text1 reply1 : String)
    (ts1 : Nat) (rest : List InboundMsg) :
    (honeypot_run cfgGroq cbOk sid rest
      (honeypot_step cfgGroq cbOk sid sender1 text1 reply1 ts1 initialState).1).sd.persona
      = select_persona (detect_scam_intent text1).2.2 := by
  rw [honeypot_run_persona _ _ _ _ _ (by rw [honeypot_step_message_count]; omega),
    honeypot_step_persona, record_inbound_persona_of_first _ _ _ rfl]

/-- C4: with exactly three distinct intelligence values {a, b, c} gathered in
a session, finalization linking inserts exactly the three pairs (a,b), (a,c),
(b,c), and running the linking a second time for the same session inserts
nothing more. -/
theorem build_network_links_triangle (a b c sid : String)
    (db : List (String × String × String)) (hab : a ≠ b) (hac : a ≠ c) (hbc : b ≠ c)
    (h1 : (a, b, sid) ∉ db) (h2 : (a, c, sid) ∉ db) (h3 : (b, c, sid) ∉ db) :
    build_network_links sid [a, b, c] db
      = db ++ [(a, b, sid), (a, c, sid), (b, c, sid)] ∧
    build_network_links sid [a, b, c] (build_network_links sid [a, b, c] db)
      = build_network_links sid [a, b, c] db := by
  have i1 : insert_link a b sid db = db ++ [(a, b, sid)] := by
    simp [insert_link, h1]
  have i2 : insert_link a c sid (db ++ [(a, b, sid)]) = db ++ [(a, b, sid), (a, c, sid)] := by
    have hmem : (a, c, sid) ∉ db ++ [(a, b, sid)] := by
      simp [List.mem_append, h2, Prod.ext_iff]
      intro hcb
      exact hbc hcb.symm
    simp [insert_link, hmem]
  have i3 : insert_link b c sid (db ++ [(a, b, sid), (a, c, sid)])
      = db ++ [(a, b, sid), (a, c, sid), (b, c, sid)] := by
    have hmem : (b, c, sid) ∉ db ++ [(a, b, sid), (a, c, sid)] := by
      simp [List.mem_append, h3, Prod.ext_iff]
      constructor
      · intro hba
        exact absurd hba.symm hab
      · intro hba
        exact absurd hba.symm hab
    simp [insert_link, hmem]
  have hrun : build_network_links sid [a, b, c] db
      = db ++ [(a, b, sid), (a, c, sid), (b, c, sid)] := by
    show insert_link b c sid (insert_link a c sid (insert_link a b sid db)) = _
    rw [i1, i2, i3]
  refine ⟨hrun, ?_⟩
  rw [hrun]
  show insert_link b c sid (insert_link a c sid (insert_link a b sid _)) = _
  have j1 : insert_link a b sid (db ++ [(a, b, sid), (a, c, sid), (b, c, sid)])
      = db ++ [(a, b, sid), (a, c, sid), (b, c, sid)] := by
    simp [insert_link]
  have j2 : insert_link a c sid (db ++ [(a, b, sid), (a, c, sid), (b, c, sid)])
      = db ++ [(a, b, sid), (a, c, sid), (b, c, sid)] := by
    simp [insert_link]
  have j3 : insert_link b c sid (db ++ [(a, b, sid), (a, c, sid), (b, c, sid)])
      = db ++ [(a, b, sid), (a, c, sid), (b, c, sid)] := by
    simp [insert_link]
  rw [j1, j2, j3]

/-- C4, witnessed at concrete identifiers on an empty table. -/
theorem build_network_links_triangle_witness :
    build_network_links "s1" ["a1", "b2", "c3"] []
      = [] ++ [("a1", "b2", "s1"), ("a1", "c3", "s1"), ("b2", "c3", "s1")] ∧
    build_network_links "s1" ["a1", "b2", "c3"] (build_network_links "s1" ["a1", "b2", "c3"] [])
      = build_network_links "s1" ["a1", "b2", "c3"] [] :=
  build_network_links_triangle "a1" "b2" "c3" "s1" [] (by decide) (by decide) (by decide)
    (by simp) (by simp) (by simp)

/-- C1 (code behaviour at the failing input): in a single session of two
counterparty messages whose first message carries the payment handle
`rewards@paytm`, the per-message persistence loop re-saves the stored item on
the second message, so the `scammers` row ends with `session_count = 2`
although the identifier was observed in only one session. -/
theorem scammer_profile_double_count :
    (honeypot_run false true "s1" twoMsgSession initialState).scammers
      = [("rewards@paytm", 2)] := by decide

/-! ### Lemmas about the bank and phone scanners on standalone digit runs -/

theorem isWordB_of_isDigitB (c : Char) (h : isDigitB c = true) : isWordB c = true := by
  simp [isWordB, h]

theorem isDigitB_false_of_not_word (c : Char) (h : isWordB c = false) : isDigitB c = false := by
  cases hd : isDigitB c
  · rfl
  · rw [isWordB_of_isDigitB c hd] at h
    cases h

theorem bankGo_append_digits (ds : List Char) (h : ∀ c ∈ ds, isDigitB c = true) :
    ∀ (leftOk : Bool) (run rest : List Char),
      bankGo leftOk run (ds ++ rest) = bankGo leftOk (run ++ ds) rest := by
  induction ds with
  | nil => intro leftOk run rest; simp
  | cons c cs ih =>
    intro leftOk run rest
    have hc := h c (List.mem_cons_self c cs)
    show bankGo leftOk run (c :: (cs ++ rest)) = _
    simp only [bankGo, hc, if_true]
    rw [ih (fun x hx => h x (List.mem_cons_of_mem _ hx)) leftOk (run ++ [c]) rest]
    simp

theorem bankEmit_nil (lo bd : Bool) : bankEmit lo [] bd = [] := by
  cases lo <;> cases bd <;> rfl

theorem bankGo_skip_nonword (pre : List Char) (h : ∀ c ∈ pre, isWordB c = false)
    (rest : List Char) : bankGo true [] (pre ++ rest) = bankGo true [] rest := by
  induction pre with
  | nil => rfl
  | cons c cs ih =>
    have hw := h c (List.mem_cons_self c cs)
    have hdig := isDigitB_false_of_not_word c hw
    show bankGo true [] (c :: (cs ++ rest)) = _
    simp only [bankGo, hdig, hw, Bool.false_eq_true, if_false, bankEmit_nil, Bool.not_false,
      List.nil_append]
    exact ih (fun x hx => h x (List.mem_cons_of_mem _ hx))

theorem bankGo_no_digits (cs : List Char) (h : ∀ c ∈ cs, isDigitB c = false) :
    ∀ leftOk, bankGo leftOk [] cs = [] := by
  induction cs with
  | nil =>
    intro leftOk
    exact bankEmit_nil leftOk true
  | cons c cs ih =>
    intro leftOk
    have hc := h c (List.mem_cons_self c cs)
    simp only [bankGo, hc, Bool.false_eq_true, if_false, bankEmit_nil, List.nil_append]
    exact ih (fun x hx => h x (List.mem_cons_of_mem _ hx)) _

theorem findBank_standalone (pre d post : List Char)
    (hpre : ∀ c ∈ pre, isWordB c = false) (hd : ∀ c ∈ d, isDigitB c = true)
    (h9 : 9 ≤ d.length) (h18 : d.length ≤ 18) (hpost : ∀ c ∈ post, isWordB c = false) :
    findBank (pre ++ d ++ post) = [d] := by
  show bankGo true [] (pre ++ d ++ post) = [d]
  rw [List.append_assoc, bankGo_skip_nonword pre hpre, bankGo_append_digits d hd true [] post]
  simp only [List.nil_append]
  cases post with
  | nil =>
    simp [bankGo, bankEmit, h9, h18]
  | cons c cs =>
    have hw := hpost c (List.mem_cons_self c cs)
    have hdig := isDigitB_false_of_not_word c hw
    have hrest : bankGo true [] cs = [] :=
      bankGo_no_digits cs
        (fun x hx => isDigitB_false_of_not_word x (hpost x (List.mem_cons_of_mem _ hx))) true
    simp [bankGo, hdig, hw, bankEmit, h9, h18, hrest]

theorem phoneChunksF_nil (fuel : Nat) : phoneChunksF fuel [] = [] := by
  cases fuel <;> rfl

theorem emitPhoneRun_nil (plus : Bool) : emitPhoneRun plus [] = [] := by
  cases plus <;> rfl

theorem phoneGo_append_digits (ds : List Char) (h : ∀ c ∈ ds, isDigitB c = true) :
    ∀ (plus : Bool) (run rest : List Char),
      phoneGo plus run (ds ++ rest) = phoneGo plus (run ++ ds) rest := by
  induction ds with
  | nil => intro plus run rest; simp
  | cons c cs ih =>
    intro plus run rest
    have hc := h c (List.mem_cons_self c cs)
    show phoneGo plus run (c :: (cs ++ rest)) = _
    simp only [phoneGo, hc, if_true]
    rw [ih (fun x hx => h x (List.mem_cons_of_mem _ hx)) plus (run ++ [c]) rest]
    simp

theorem phoneGo_skip (pre : List Char) (h : ∀ c ∈ pre, isDigitB c = false ∧ ¬ c = '+')
    (rest : List Char) : phoneGo false [] (pre ++ rest) = phoneGo false [] rest := by
  induction pre with
  | nil => rfl
  | cons c cs ih =>
    obtain ⟨hdig, hplus⟩ := h c (List.mem_cons_self c cs)
    show phoneGo false [] (c :: (cs ++ rest)) = _
    simp only [phoneGo, hdig, Bool.false_eq_true, if_false, hplus, emitPhoneRun_nil,
      List.nil_append]
    exact ih (fun x hx => h x (List.mem_cons_of_mem _ hx))

theorem phoneGo_no_digits (cs : List Char) (h : ∀ c ∈ cs, isDigitB c = false) :
    ∀ plus, phoneGo plus [] cs = [] := by
  induction cs with
  | nil => intro plus; exact emitPhoneRun_nil plus
  | cons c cs ih =>
    intro plus
    have hdig := h c (List.mem_cons_self c cs)
    by_cases hp : c = '+'
    · simp only [phoneGo, hdig, Bool.false_eq_true, if_false, hp, if_true, emitPhoneRun_nil,
        List.nil_append]
      exact ih (fun x hx => h x (List.mem_cons_of_mem _ hx)) true
    · simp only [phoneGo, hdig, Bool.false_eq_true, if_false, hp, emitPhoneRun_nil,
        List.nil_append]
      exact ih (fun x hx => h x (List.mem_cons_of_mem _ hx)) false

theorem emitPhoneRun_false_short (d : List Char) (h10 : 10 ≤ d.length)
    (h13 : d.length ≤ 13) : emitPhoneRun false d = [d] := by
  obtain ⟨n, hn⟩ : ∃ n, d.length = n + 1 := ⟨d.length - 1, by omega⟩
  show phoneChunksF d.length d = [d]
  rw [hn]
  show (if 10 ≤ d.length then d.take 13 :: phoneChunksF n (d.drop 13) else []) = [d]
  rw [if_pos h10, List.take_of_length_le (by omega), List.drop_eq_nil_of_le (by omega),
    phoneChunksF_nil]

theorem findPhone_standalone (pre d post : List Char)
    (hpre : ∀ c ∈ pre, isDigitB c = false ∧ ¬ c = '+')
    (hd : ∀ c ∈ d, isDigitB c = true) (h10 : 10 ≤ d.length) (h13 : d.length ≤ 13)
    (hpost : ∀ c ∈ post, isDigitB c = false) :
    findPhone (pre ++ d ++ post) = [d] := by
  show phoneGo false [] (pre ++ d ++ post) = [d]
  rw [List.append_assoc, phoneGo_skip pre hpre, phoneGo_append_digits d hd false [] post]
  simp only [List.nil_append]
  have hemit := emitPhoneRun_false_short d h10 h13
  cases post with
  | nil => exact hemit
  | cons c cs =>
    have hdig := hpost c (List.mem_cons_self c cs)
    have hrest : ∀ plus, phoneGo plus [] cs = [] :=
      phoneGo_no_digits cs (fun x hx => hpost x (List.mem_cons_of_mem _ hx))
    by_cases hp : c = '+'
    · subst hp
      simp [phoneGo, hdig, hemit, hrest]
    · simp [phoneGo, hdig, hp, hemit, hrest]

theorem bankConf_of_le13 (v : String) (h : v.length ≤ 13) :
    bankConf v = if 11 ≤ v.length then 90 else 60 := by
  by_cases h11 : 11 ≤ v.length
  · have h16 : v.length ≤ 16 := by omega
    simp [bankConf, h11, h16]
  · simp [bankConf, h11]

/-! ### Membership lemmas: a standalone digit run is found in any text

The `find*_standalone` lemmas above compute the scanners exactly on texts that
consist of nothing but the run and separators.  The claims quantify over every
text *containing* such a run, so the following lemmas establish membership of
the run in the scanner output for arbitrary surrounding text, constraining
only the characters adjacent to the run. -/

theorem mem_addItems_mono (keep : String → Bool) (conf : String → Nat) (method : String)
    (ts : Nat) (vals : List String) (items : List IntelligenceItem) (x : IntelligenceItem)
    (h : x ∈ items) : x ∈ addItems keep conf method ts vals items := by
  induction vals generalizing items with
  | nil => exact h
  | cons v vs ih =>
    simp only [addItems, List.foldl_cons]
    apply ih
    split
    · exact List.mem_append_left _ h
    · exact h

theorem mem_addItems_of_mem_vals (keep : String → Bool) (conf : String → Nat) (method : String)
    (ts : Nat) (vals : List String) (items : List IntelligenceItem) (v : String)
    (hv : v ∈ vals) (hk : keep v = true) (hnot : hasValue items v = false) :
    (⟨v, conf v, ts, method⟩ : IntelligenceItem) ∈ addItems keep conf method ts vals items := by
  induction vals generalizing items with
  | nil => cases hv
  | cons u vs ih =>
    simp only [addItems, List.foldl_cons]
    by_cases huv : u = v
    · have hstep : (if keep u && !hasValue items u then
          items ++ [⟨u, conf u, ts, method⟩] else items)
          = items ++ [⟨v, conf v, ts, method⟩] := by
        rw [huv, hk, hnot]
        rfl
      rw [hstep]
      exact mem_addItems_mono _ _ _ _ _ _ _ (List.mem_append_right _ (by simp))
    · have hv2 : v ∈ vs := by
        rcases List.mem_cons.mp hv with h1 | h2
        · exact absurd h1.symm huv
        · exact h2
      have hnot2 : hasValue (if keep u && !hasValue items u then
          items ++ [⟨u, conf u, ts, method⟩] else items) v = false := by
        by_cases hc : (keep u && !hasValue items u) = true
        · rw [if_pos hc, hasValue_append, hnot]
          simp [huv]
        · rw [if_neg hc]
          exact hnot
      exact ih _ hv2 hnot2

theorem bankGo_mem_core (d post : List Char) (hd : ∀ c ∈ d, isDigitB c = true)
    (h9 : 9 ≤ d.length) (h18 : d.length ≤ 18)
    (hpost : post.head?.all (fun c => !isWordB c) = true) :
    d ∈ bankGo true [] (d ++ post) := by
  rw [bankGo_append_digits d hd true [] post]
  cases post with
  | nil =>
    show d ∈ bankEmit true ([] ++ d) true
    simp [bankEmit, h9, h18]
  | cons c cs =>
    have hw : isWordB c = false := by
      have : (!isWordB c) = true := hpost
      rwa [Bool.not_eq_true'] at this
    have hdig := isDigitB_false_of_not_word c hw
    show d ∈ bankGo true ([] ++ d) (c :: cs)
    simp only [List.nil_append, bankGo, hdig, Bool.false_eq_true, if_false]
    apply List.mem_append_left
    simp [bankEmit, hw, h9, h18]

theorem bankGo_mem_sep (d post : List Char) (hd : ∀ c ∈ d, isDigitB c = true)
    (h9 : 9 ≤ d.length) (h18 : d.length ≤ 18)
    (hpost : post.head?.all (fun c => !isWordB c) = true)
    (sep : Char) (hsep : isWordB sep = false) :
    ∀ (zs : List Char) (leftOk : Bool) (run : List Char),
      d ∈ bankGo leftOk run (zs ++ sep :: (d ++ post)) := by
  intro zs
  induction zs with
  | nil =>
    intro leftOk run
    have hdig := isDigitB_false_of_not_word sep hsep
    show d ∈ bankGo leftOk run (sep :: (d ++ post))
    simp only [bankGo, hdig, Bool.false_eq_true, if_false]
    apply List.mem_append_right
    simp only [hsep, Bool.not_false]
    exact bankGo_mem_core d post hd h9 h18 hpost
  | cons z zs ih =>
    intro leftOk run
    show d ∈ bankGo leftOk run (z :: (zs ++ sep :: (d ++ post)))
    by_cases hz : isDigitB z = true
    · simp only [bankGo, hz, if_true]
      exact ih _ _
    · rw [Bool.not_eq_true] at hz
      simp only [bankGo, hz, Bool.false_eq_true, if_false]
      exact List.mem_append_right _ (ih _ _)

theorem findBank_mem (pre d post : List Char)
    (hpre : pre.getLast?.all (fun c => !isWordB c) = true)
    (hd : ∀ c ∈ d, isDigitB c = true) (h9 : 9 ≤ d.length) (h18 : d.length ≤ 18)
    (hpost : post.head?.all (fun c => !isWordB c) = true) :
    d ∈ findBank (pre ++ d ++ post) := by
  rcases List.eq_nil_or_concat pre with rfl | ⟨zs, sep, rfl⟩
  · simpa using bankGo_mem_core d post hd h9 h18 hpost
  · rw [List.concat_eq_append] at hpre
    rw [List.concat_eq_append]
    have hsep : isWordB sep = false := by
      rw [List.getLast?_concat] at hpre
      have h1 : (!isWordB sep) = true := hpre
      rwa [Bool.not_eq_true'] at h1
    show d ∈ bankGo true [] ((zs ++ [sep]) ++ d ++ post)
    rw [show (zs ++ [sep]) ++ d ++ post = zs ++ sep :: (d ++ post) by simp]
    exact bankGo_mem_sep d post hd h9 h18 hpost sep hsep zs true []

theorem phoneGo_mem_core (d post : List Char) (hd : ∀ c ∈ d, isDigitB c = true)
    (h10 : 10 ≤ d.length) (h13 : d.length ≤ 13)
    (hpost : post.head?.all (fun c => !isDigitB c) = true) :
    d ∈ phoneGo false [] (d ++ post) := by
  rw [phoneGo_append_digits d hd false [] post]
  have hemit := emitPhoneRun_false_short d h10 h13
  cases post with
  | nil =>
    show d ∈ emitPhoneRun false ([] ++ d)
    simp [hemit]
  | cons c cs =>
    have hdig : isDigitB c = false := by
      have : (!isDigitB c) = true := hpost
      rwa [Bool.not_eq_true'] at this
    show d ∈ phoneGo false ([] ++ d) (c :: cs)
    simp only [List.nil_append, phoneGo, hdig, Bool.false_eq_true, if_false]
    split
    · exact List.mem_append_left _ (by simp [hemit])
    · exact List.mem_append_left _ (by simp [hemit])

theorem phoneGo_mem_sep (d post : List Char) (hd : ∀ c ∈ d, isDigitB c = true)
    (h10 : 10 ≤ d.length) (h13 : d.length ≤ 13)
    (hpost : post.head?.all (fun c => !isDigitB c) = true)
    (sep : Char) (hsd : isDigitB sep = false) (hsp : ¬ sep = '+') :
    ∀ (zs : List Char) (plus : Bool) (run : List Char),
      d ∈ phoneGo plus run (zs ++ sep :: (d ++ post)) := by
  intro zs
  induction zs with
  | nil =>
    intro plus run
    show d ∈ phoneGo plus run (sep :: (d ++ post))
    simp only [phoneGo, hsd, Bool.false_eq_true, if_false]
    rw [if_neg hsp]
    exact List.mem_append_right _ (phoneGo_mem_core d post hd h10 h13 hpost)
  | cons z zs ih =>
    intro plus run
    show d ∈ phoneGo plus run (z :: (zs ++ sep :: (d ++ post)))
    by_cases hz : isDigitB z = true
    · simp only [phoneGo, hz, if_true]
      exact ih _ _
    · rw [Bool.not_eq_true] at hz
      simp only [phoneGo, hz, Bool.false_eq_true, if_false]
      by_cases hzp : z = '+'
      · rw [if_pos hzp]
        exact List.mem_append_right _ (ih _ _)
      · rw [if_neg hzp]
        exact List.mem_append_right _ (ih _ _)

theorem findPhone_mem (pre d post : List Char)
    (hpre : pre.getLast?.all (fun c => !isDigitB c && !(c == '+')) = true)
    (hd : ∀ c ∈ d, isDigitB c = true) (h10 : 10 ≤ d.length) (h13 : d.length ≤ 13)
    (hpost : post.head?.all (fun c => !isDigitB c) = true) :
    d ∈ findPhone (pre ++ d ++ post) := by
  rcases List.eq_nil_or_concat pre with rfl | ⟨zs, sep, rfl⟩
  · simpa using phoneGo_mem_core d post hd h10 h13 hpost
  · rw [List.concat_eq_append] at hpre
    rw [List.concat_eq_append]
    rw [List.getLast?_concat] at hpre
    have h12 : (!isDigitB sep && !(sep == '+')) = true := hpre
    rw [Bool.and_eq_true] at h12
    obtain ⟨h1, h2⟩ := h12
    have hsd : isDigitB sep = false := by rwa [Bool.not_eq_true'] at h1
    have hsp : ¬ sep = '+' := by
      rw [Bool.not_eq_true'] at h2
      simpa using h2
    show d ∈ phoneGo false [] ((zs ++ [sep]) ++ d ++ post)
    rw [show (zs ++ [sep]) ++ d ++ post = zs ++ sep :: (d ++ post) by simp]
    exact phoneGo_mem_sep d post hd h10 h13 hpost sep hsd hsp zs false []

/-- C10: for every text containing a standalone digit run of 10 to 13 digits —
arbitrary text before and after, with the character immediately before the run
(if any) a non-word character other than `+` and the character immediately
after it (if any) a non-word character — whose value is not yet stored, a
single extraction call records that digit string twice: as a bank-account item
(confidence 0.9 when its length is at least 11, else 0.6) and as a
phone-number item (confidence 0.7). -/
theorem digit_run_double_extraction (pre d post : List Char) (S : ExtractedIntelligence)
    (ts : Nat)
    (hpre : pre.getLast?.all (fun c => !isWordB c && !(c == '+')) = true)
    (hpost : post.head?.all (fun c => !isWordB c) = true)
    (hd : ∀ c ∈ d, isDigitB c = true)
    (hlen1 : 10 ≤ d.length) (hlen2 : d.length ≤ 13)
    (hb : hasValue S.bankAccounts d.asString = false)
    (hp : hasValue S.phoneNumbers d.asString = false) :
    (⟨d.asString, if 11 ≤ d.length then 90 else 60, ts, "regex_bank"⟩ : IntelligenceItem)
      ∈ (extract_intelligence (pre ++ d ++ post).asString S ts).bankAccounts ∧
    (⟨d.asString, 70, ts, "regex_phone"⟩ : IntelligenceItem)
      ∈ (extract_intelligence (pre ++ d ++ post).asString S ts).phoneNumbers := by
  have hpreW : pre.getLast?.all (fun c => !isWordB c) = true := by
    cases hLast : pre.getLast? with
    | none => rfl
    | some c =>
      rw [hLast] at hpre
      have h12 : (!isWordB c && !(c == '+')) = true := hpre
      rw [Bool.and_eq_true] at h12
      exact h12.1
  have hpreP : pre.getLast?.all (fun c => !isDigitB c && !(c == '+')) = true := by
    cases hLast : pre.getLast? with
    | none => rfl
    | some c =>
      rw [hLast] at hpre
      have h12 : (!isWordB c && !(c == '+')) = true := hpre
      rw [Bool.and_eq_true] at h12
      obtain ⟨h1, h2⟩ := h12
      have hw : isWordB c = false := by rwa [Bool.not_eq_true'] at h1
      show (!isDigitB c && !(c == '+')) = true
      rw [isDigitB_false_of_not_word c hw, h2]
      rfl
  have hpostP : post.head?.all (fun c => !isDigitB c) = true := by
    cases hHead : post.head? with
    | none => rfl
    | some c =>
      rw [hHead] at hpost
      have h1 : (!isWordB c) = true := hpost
      have hw : isWordB c = false := by rwa [Bool.not_eq_true'] at h1
      show (!isDigitB c) = true
      rw [isDigitB_false_of_not_word c hw]
      rfl
  have hmb : d ∈ findBank (pre ++ d ++ post) :=
    findBank_mem pre d post hpreW hd (by omega) (by omega) hpost
  have hmp : d ∈ findPhone (pre ++ d ++ post) :=
    findPhone_mem pre d post hpreP hd hlen1 hlen2 hpostP
  constructor
  · have hmem := mem_addItems_of_mem_vals (fun _ => true) bankConf "regex_bank" ts
      ((findBank (pre ++ d ++ post)).map List.asString) S.bankAccounts d.asString
      (List.mem_map_of_mem List.asString hmb) rfl hb
    rw [bankConf_of_le13 d.asString hlen2] at hmem
    exact hmem
  · have hne : ¬ (d.asString.toList.headD ' ' = '+') := by
      cases d with
      | nil => simp at hlen1
      | cons e dt =>
        have hdig := hd e (List.mem_cons_self e dt)
        show ¬ ((e :: dt).headD ' ' = '+')
        simp only [List.headD_cons]
        intro heq
        rw [heq] at hdig
        exact absurd hdig (by decide)
    have hpc : phoneConf d.asString = 70 := by
      unfold phoneConf
      rw [if_neg hne]
    have hmem := mem_addItems_of_mem_vals (fun _ => true) phoneConf "regex_phone" ts
      ((findPhone (pre ++ d ++ post)).map List.asString) S.phoneNumbers d.asString
      (List.mem_map_of_mem List.asString hmp) rfl hp
    rw [hpc] at hmem
    exact hmem

/-- C10 witnessed at a concrete ordinary input: in `"call 9876543210 now"`
the standalone 10-digit run becomes both a bank-account item with confidence
0.6 and a phone-number item with confidence 0.7. -/
theorem digit_run_double_extraction_witness :
    (⟨"9876543210".toList.asString, if 11 ≤ "9876543210".toList.length then 90 else 60, 0,
        "regex_bank"⟩ : IntelligenceItem)
      ∈ (extract_intelligence ("call ".toList ++ "9876543210".toList ++ " now".toList).asString
          emptyIntel 0).bankAccounts ∧
    (⟨"9876543210".toList.asString, 70, 0, "regex_phone"⟩ : IntelligenceItem)
      ∈ (extract_intelligence ("call ".toList ++ "9876543210".toList ++ " now".toList).asString
          emptyIntel 0).phoneNumbers :=
  digit_run_double_extraction "call ".toList "9876543210".toList " now".toList emptyIntel 0
    (by decide) (by decide) (by decide) (by decide) (by decide) (by decide) (by decide)

end Honeypot
